import Mathlib

/-!
# Verification of the ENSO staking dashboard core

Shallow embedding of the shared fetch / decode / project / aggregate logic of
`enso_staking_tracker.py`, `enso_top_stakers.py` and `dashboard.py`, together
with theorems settling the specification claims about it.

Modelling conventions:
* hex strings carrying integers (`blockNumber`, topics, data words) are
  modelled at byte level (`List Nat`, each entry one byte) or directly as the
  decoded `Nat`, with `int(h, 16)` modelled as big-endian byte folding;
* Python `float` values produced by `x / 10**DECIMALS` are modelled as exact
  rationals (`ℚ`); the IEEE binary64 rounding that Python's division performs
  is modelled separately by `float_div` where a claim is about exactness;
* the unbounded `while True` pagination loop is modelled with an explicit
  fuel parameter; `none` means the fuel ran out before the loop ended.
-/

namespace Enso

/-- One raw log record as returned by the log source, reduced to the fields
the pagination loop inspects: `blockNumber` (the code reads
`int(logs[-1]["blockNumber"], 16)`) plus an opaque identity tag standing for
the transaction hash / log index, used to state duplicate/skip properties. -/
structure Rec where
  blockNumber : Nat
  txid : Nat
deriving DecidableEq, Repr

/-- One JSON response of the log source, reduced to the fields the loop
inspects: `resp.get("status")` and `resp.get("result")`.  A transport/auth
failure is a response whose `status` is not `"1"`. -/
structure Response where
  status : String
  result : List Rec
deriving DecidableEq, Repr

/-- A log source: for each requested `fromBlock` cursor, the response the
source returns (the contract address, topic0 and `toBlock="latest"` are fixed
throughout one `fetch_logs` call and are left implicit). -/
def Source : Type := Nat → Response

/-- Embedding of `int(logs[-1]["blockNumber"], 16)` — block number of the last record of a
page (0 as unreachable default for an empty page). -/
def lastBlockOf (logs : List Rec) : Nat :=
  (logs.getLast?).elim 0 (·.blockNumber)

/-- Embedding of `fetch_logs` (identical in all three scripts):

    while True:
        resp = requests.get(...).json()
        if resp.get("status") != "1" or not resp.get("result"):
            break
        logs = resp["result"]
        all_logs.extend(logs)
        if len(logs) >= 1000:
            from_block = int(logs[-1]["blockNumber"], 16) + 1
        else:
            break
    return all_logs

The function returns `some (reqs, records)` where `reqs` is the list of
`fromBlock` cursors actually requested, and `records` the accumulated
`all_logs`; `none` means the fuel was exhausted before the loop ended. -/
def fetch_logs (src : Source) : Nat → Nat → Option (List Nat × List Rec)
  | 0, _ => none
  | fuel + 1, from_block =>
    if (src from_block).status ≠ "1" ∨ (src from_block).result = [] then
      some ([from_block], [])
    else if 1000 ≤ (src from_block).result.length then
      match fetch_logs src fuel (lastBlockOf (src from_block).result + 1) with
      | none => none
      | some (reqs, recs) => some (from_block :: reqs, (src from_block).result ++ recs)
    else
      some ([from_block], (src from_block).result)

/-- A source that answers every request with a transport/auth failure
(Etherscan rate-limit style: `status = "0"`, no records). -/
def srcFailing : Source := fun _ => ⟨"0", []⟩

/-- A source that answers every request with an empty successful result. -/
def srcEmpty : Source := fun _ => ⟨"1", []⟩

/-- C1, counterexample: on a source whose every response is a transport/auth
failure, `fetch_logs` returns the very same ordinary success value
`some ([0], [])` as on a source whose every response is success with zero
records — the failure is swallowed as "no more data", not surfaced. -/
theorem fetch_logs_conflates_failure_and_empty :
    fetch_logs srcFailing 1 0 = some ([0], []) ∧
    fetch_logs srcEmpty 1 0 = some ([0], []) ∧
    fetch_logs srcFailing 1 0 = fetch_logs srcEmpty 1 0 := by
  refine ⟨rfl, rfl, rfl⟩

/-- C1, amended: any response that is not success-with-records — whether an
empty successful result or a transport/auth failure (`status ≠ "1"`) — ends
pagination identically: the loop breaks and the records accumulated so far
are returned as an ordinary success.  No fetch failure is ever surfaced to
the caller. -/
theorem fetch_logs_break_on_non_success (src : Source) (fuel from_block : Nat)
    (h : (src from_block).status ≠ "1" ∨ (src from_block).result = []) :
    fetch_logs src (fuel + 1) from_block = some ([from_block], []) := by
  unfold fetch_logs
  simp only [if_pos h]

/-- Witness for `fetch_logs_break_on_non_success` at the concrete failing
source. -/
theorem fetch_logs_break_on_non_success_witness :
    fetch_logs srcFailing 3 0 = some ([0], []) :=
  fetch_logs_break_on_non_success srcFailing 2 0 (by left; decide)

/-- C10: the pagination loop terminates for every log source whose responses
satisfy the block-cursor contract — each returned record's block number is at
least the requested `fromBlock` and at most `latest` — because every full
page strictly advances the cursor (to the last record's block + 1) and every
partial, empty or non-success response ends the loop immediately.  Stated
with fuel: `latest + 2 - from_block` iterations always suffice. -/
theorem fetch_logs_terminates (src : Source) (latest : Nat)
    (hb : ∀ f, ∀ r ∈ (src f).result, f ≤ r.blockNumber ∧ r.blockNumber ≤ latest) :
    ∀ fuel from_block, from_block ≤ latest + 1 → latest + 2 - from_block ≤ fuel →
      (fetch_logs src fuel from_block).isSome := by
  intro fuel
  induction fuel with
  | zero => intro f hf hfuel; omega
  | succ n ih =>
    intro f hf hfuel
    unfold fetch_logs
    by_cases hbrk : (src f).status ≠ "1" ∨ (src f).result = []
    · simp [hbrk]
    · simp only [if_neg hbrk]
      push_neg at hbrk
      obtain ⟨hst, hne⟩ := hbrk
      by_cases hlen : 1000 ≤ (src f).result.length
      · simp only [if_pos hlen]
        have hlast : (src f).result.getLast? = some ((src f).result.getLast hne) :=
          List.getLast?_eq_getLast _ hne
        have hmem : (src f).result.getLast hne ∈ (src f).result := List.getLast_mem hne
        obtain ⟨h1, h2⟩ := hb f _ hmem
        have hlb : lastBlockOf (src f).result = ((src f).result.getLast hne).blockNumber := by
          unfold lastBlockOf; rw [hlast]; rfl
        have hnext : (fetch_logs src n (lastBlockOf (src f).result + 1)).isSome := by
          apply ih
          · omega
          · omega
        obtain ⟨p, hp⟩ := Option.isSome_iff_exists.mp hnext
        obtain ⟨reqs, recs⟩ := p
        rw [hp]
        rfl
      · simp [hlen]

/-- Witness for `fetch_logs_terminates`: the always-empty source, `latest = 0`,
two units of fuel. -/
theorem fetch_logs_terminates_witness : (fetch_logs srcEmpty 2 0).isSome :=
  fetch_logs_terminates srcEmpty 0
    (fun f r hr => by simp [srcEmpty] at hr) 2 0 (by decide) (by decide)

/-! ## Pagination over a synthetic block-ascending source (C2) -/

/-- Blocks of two records are in non-decreasing order. -/
def blockLE (a b : Rec) : Prop := a.blockNumber ≤ b.blockNumber

instance : DecidableRel blockLE := fun a b => Nat.decLe a.blockNumber b.blockNumber

instance : IsTrans Rec blockLE := ⟨fun _ _ _ h₁ h₂ => Nat.le_trans h₁ h₂⟩

/-- The master list of a synthetic source is block-ascending. -/
def SortedBlocks (L : List Rec) : Prop := L.Chain' blockLE

/-- Executable check for `SortedBlocks`. -/
def sortedBlocksB : List Rec → Bool
  | [] => true
  | [_] => true
  | a :: b :: t => decide (a.blockNumber ≤ b.blockNumber) && sortedBlocksB (b :: t)

theorem sortedBlocksB_iff : ∀ L, sortedBlocksB L = true ↔ SortedBlocks L
  | [] => by simp [sortedBlocksB, SortedBlocks]
  | [a] => by simp [sortedBlocksB, SortedBlocks]
  | a :: b :: t => by
    rw [SortedBlocks, List.chain'_cons]
    simp only [sortedBlocksB, Bool.and_eq_true, decide_eq_true_eq]
    exact and_congr Iff.rfl (sortedBlocksB_iff (b :: t))

instance (L : List Rec) : Decidable (SortedBlocks L) :=
  decidable_of_iff _ (sortedBlocksB_iff L)

/-- One page of the synthetic source: the first (at most) 1000 records of `L`
whose block number is at least the requested cursor `f` — the provider's
documented 1000-records/page cap, truncating silently beyond it. -/
def page (L : List Rec) (f : Nat) : List Rec :=
  (L.filter (fun r => f ≤ r.blockNumber)).take 1000

/-- A synthetic log source built from a master list `L`: every request
succeeds and returns one `page`. -/
def mkSource (L : List Rec) : Source := fun f => ⟨"1", page L f⟩

theorem page_sublist (L : List Rec) (f : Nat) : List.Sublist (page L f) L :=
  (List.take_sublist _ _).trans (List.filter_sublist _)

theorem mem_page_ge {L : List Rec} {f : Nat} {r : Rec} (h : r ∈ page L f) :
    f ≤ r.blockNumber := by
  have := List.of_mem_filter (List.mem_of_mem_take h)
  simpa using this

/-- In a block-ascending list, every record's block is at most the block of
the last record. -/
theorem le_lastBlockOf : ∀ {M : List Rec}, M.Pairwise blockLE → ∀ {r : Rec}, r ∈ M →
    r.blockNumber ≤ lastBlockOf M := by
  intro M
  induction M with
  | nil => intro _ r hr; cases hr
  | cons a M ih =>
    intro hp r hr
    cases M with
    | nil =>
      have hra : r = a := List.mem_singleton.mp hr
      subst hra
      simp [lastBlockOf]
    | cons b M' =>
      have hlast : lastBlockOf (a :: b :: M') = lastBlockOf (b :: M') := by
        simp [lastBlockOf]
      rw [hlast]
      rcases List.mem_cons.mp hr with h | h
      · subst h
        have hb : b ∈ b :: M' := List.mem_cons_self b M'
        have hab : blockLE r b := (List.pairwise_cons.mp hp).1 b hb
        exact Nat.le_trans hab (ih (List.pairwise_cons.mp hp).2 hb)
      · exact ih (List.pairwise_cons.mp hp).2 h

theorem mem_page_le {L : List Rec} (hp : L.Pairwise blockLE) {f : Nat} {r : Rec}
    (h : r ∈ page L f) : r.blockNumber ≤ lastBlockOf (page L f) :=
  le_lastBlockOf (hp.sublist (page_sublist L f)) h

/-- The "no split pages" condition: whenever a request at cursor `f` would
return a full page, that page already contains every record of `L` landing on
its final block — i.e. the 1000-record cap never cuts inside a block. -/
def NoSplitPages (L : List Rec) : Prop :=
  ∀ f, 1000 ≤ (page L f).length →
    ∀ r ∈ L, r.blockNumber = lastBlockOf (page L f) → r ∈ page L f

/-- Block layout of the C2 counterexample source: blocks 0,…,998 hold one
record each, block 999 holds three records (indices 999, 1000, 1001, so the
1000-record page cap cuts inside block 999), and block 1500 holds one. -/
def cexBlock (i : Nat) : Nat :=
  if i ≤ 998 then i else if i ≤ 1001 then 999 else 1500

/-- The C2 counterexample master list: 1003 distinct records laid out by
`cexBlock`. -/
def cexList : List Rec := (List.range 1003).map (fun i => ⟨cexBlock i, i⟩)

/-- What `fetch_logs` actually returns on the counterexample source. -/
def cexFetched : List Rec :=
  ((fetch_logs (mkSource cexList) 3 0).map Prod.snd).getD []

set_option maxRecDepth 100000 in
/-- C2, counterexample: on a block-ascending, duplicate-free multi-page
source whose records span the page-boundary block (block 999 has records on
both sides of the 1000-record cut), `fetch_logs` terminates normally but
skips a record: record `⟨999, 1000⟩` is in the source yet absent from the
fetched sequence, because the full first page ends inside block 999 and the
cursor then advances to block 1000. -/
theorem fetch_logs_skips_boundary_record :
    SortedBlocks cexList ∧ cexList.Nodup ∧
    (fetch_logs (mkSource cexList) 3 0).isSome ∧
    (⟨999, 1000⟩ : Rec) ∈ cexList ∧ (⟨999, 1000⟩ : Rec) ∉ cexFetched := by
  refine ⟨by decide, ?_, by decide, by decide, by decide⟩
  exact List.Nodup.map (fun i j hij => by
    have := congrArg Rec.txid hij
    simpa using this) (List.nodup_range 1003)

theorem fetch_logs_succ (src : Source) (n f : Nat) :
    fetch_logs src (n + 1) f =
      if (src f).status ≠ "1" ∨ (src f).result = [] then some ([f], [])
      else if 1000 ≤ (src f).result.length then
        match fetch_logs src n (lastBlockOf (src f).result + 1) with
        | none => none
        | some (reqs, recs) => some (f :: reqs, (src f).result ++ recs)
      else some ([f], (src f).result) := rfl

theorem fetch_logs_mkSource_succ (L : List Rec) (n f : Nat) :
    fetch_logs (mkSource L) (n + 1) f =
      if page L f = [] then some ([f], [])
      else if 1000 ≤ (page L f).length then
        match fetch_logs (mkSource L) n (lastBlockOf (page L f) + 1) with
        | none => none
        | some (reqs, recs) => some (f :: reqs, page L f ++ recs)
      else some ([f], page L f) := by
  rw [fetch_logs_succ]
  have hst : (mkSource L f).status = "1" := rfl
  have hres : (mkSource L f).result = page L f := rfl
  simp only [hst, hres]
  simp

theorem filter_of_filter_imp {p q : Rec → Bool} (h : ∀ r, p r = true → q r = true) :
    ∀ L : List Rec, (L.filter q).filter p = L.filter p := by
  intro L
  induction L with
  | nil => rfl
  | cons a L ih =>
    by_cases hqa : q a = true
    · by_cases hpa : p a = true <;> simp [List.filter_cons, hqa, hpa, ih]
    · have hpa : ¬p a = true := fun hp => hqa (h a hp)
      simp [List.filter_cons, hqa, hpa, ih]

theorem page_nonempty_last {L : List Rec} {f : Nat} (hne : page L f ≠ []) :
    lastBlockOf (page L f) = ((page L f).getLast hne).blockNumber := by
  unfold lastBlockOf
  rw [List.getLast?_eq_getLast _ hne]
  rfl

theorem f_le_lastBlockOf_page {L : List Rec} {f : Nat} (hne : page L f ≠ []) :
    f ≤ lastBlockOf (page L f) := by
  rw [page_nonempty_last hne]
  exact mem_page_ge (List.getLast_mem hne)

/-- On a block-ascending, duplicate-free source with no split pages, a full
page followed by the records past its last block reassembles exactly the
records from the cursor on — nothing is lost at the page boundary. -/
theorem page_full_decomp {L : List Rec} (hp : L.Pairwise blockLE) (hnd : L.Nodup)
    (hsplit : NoSplitPages L) {f : Nat} (hfull : 1000 ≤ (page L f).length) :
    page L f ++ L.filter (fun r => lastBlockOf (page L f) + 1 ≤ r.blockNumber)
      = L.filter (fun r => f ≤ r.blockNumber) := by
  set B := lastBlockOf (page L f) with hB
  set M := L.filter (fun r => f ≤ r.blockNumber) with hM
  have hne : page L f ≠ [] := by
    intro h
    rw [h] at hfull
    simp at hfull
  have hfB : f ≤ B := f_le_lastBlockOf_page hne
  have hMp : M.Pairwise blockLE := hp.sublist (List.filter_sublist L)
  have hMnd : M.Nodup := List.Nodup.sublist (List.filter_sublist L) hnd
  have hsplitM : page L f = M.take 1000 := rfl
  have htd : page L f ++ M.drop 1000 = M := by
    rw [hsplitM]; exact List.take_append_drop 1000 M
  have hA : L.filter (fun r => B + 1 ≤ r.blockNumber)
      = M.filter (fun r => B + 1 ≤ r.blockNumber) := by
    rw [hM]
    refine (filter_of_filter_imp ?_ L).symm
    intro r hr
    simp only [decide_eq_true_eq] at hr ⊢
    omega
  have hpage_nil : (page L f).filter (fun r => B + 1 ≤ r.blockNumber) = [] := by
    rw [List.filter_eq_nil_iff]
    intro r hr
    have := mem_page_le hp hr
    simp only [decide_eq_true_eq]
    omega
  have hdrop_all : (M.drop 1000).filter (fun r => B + 1 ≤ r.blockNumber)
      = M.drop 1000 := by
    rw [List.filter_eq_self]
    intro r hr
    have hrM : r ∈ M := List.mem_of_mem_drop hr
    have hrL : r ∈ L := (List.filter_sublist L).mem hrM
    have happ : (page L f ++ M.drop 1000).Pairwise blockLE := by rw [htd]; exact hMp
    have hge : B ≤ r.blockNumber := by
      have hlastmem : (page L f).getLast hne ∈ page L f := List.getLast_mem hne
      have := (List.pairwise_append.mp happ).2.2 _ hlastmem r hr
      rw [hB, page_nonempty_last hne]
      exact this
    have hneB : r.blockNumber ≠ B := by
      intro hrB
      have hrpage : r ∈ page L f := hsplit f hfull r hrL hrB
      have hdisj := (List.nodup_append.mp (htd ▸ hMnd)).2.2
      exact hdisj hrpage hr
    simp only [decide_eq_true_eq]
    omega
  calc page L f ++ L.filter (fun r => B + 1 ≤ r.blockNumber)
      = page L f ++ M.filter (fun r => B + 1 ≤ r.blockNumber) := by rw [hA]
    _ = page L f ++ ((page L f).filter (fun r => B + 1 ≤ r.blockNumber)
          ++ (M.drop 1000).filter (fun r => B + 1 ≤ r.blockNumber)) := by
        rw [← List.filter_append, htd]
    _ = page L f ++ M.drop 1000 := by rw [hpage_nil, hdrop_all]; simp
    _ = M := htd

/-- Completeness of the pagination loop on a no-split source: from cursor
`f` it retrieves exactly the records with block at least `f`. -/
theorem fetch_logs_complete {L : List Rec} (hp : L.Pairwise blockLE) (hnd : L.Nodup)
    (hsplit : NoSplitPages L) :
    ∀ fuel f, f ≤ lastBlockOf L + 1 → lastBlockOf L + 2 - f ≤ fuel →
      ∃ reqs, fetch_logs (mkSource L) fuel f
        = some (reqs, L.filter (fun r => f ≤ r.blockNumber)) := by
  intro fuel
  induction fuel with
  | zero => intro f hf hfuel; omega
  | succ n ih =>
    intro f hf hfuel
    rw [fetch_logs_mkSource_succ]
    by_cases hpage : page L f = []
    · have hfilter : L.filter (fun r => f ≤ r.blockNumber) = [] := by
        have := hpage
        unfold page at this
        rcases (List.take_eq_nil_iff).mp this with h | h
        · omega
        · exact h
      rw [if_pos hpage, hfilter]
      exact ⟨[f], rfl⟩
    · rw [if_neg hpage]
      by_cases hfull : 1000 ≤ (page L f).length
      · rw [if_pos hfull]
        have hne := hpage
        have hfB : f ≤ lastBlockOf (page L f) := f_le_lastBlockOf_page hne
        have hBL : lastBlockOf (page L f) ≤ lastBlockOf L := by
          rw [page_nonempty_last hne]
          exact le_lastBlockOf hp ((page_sublist L f).mem (List.getLast_mem hne))
        obtain ⟨reqs', heq⟩ := ih (lastBlockOf (page L f) + 1) (by omega) (by omega)
        refine ⟨f :: reqs', ?_⟩
        rw [heq]
        show some (f :: reqs', page L f ++ _) = _
        rw [page_full_decomp hp hnd hsplit hfull]
      · rw [if_neg hfull]
        have hlen : (L.filter (fun r => f ≤ r.blockNumber)).length < 1000 := by
          have h1 : (page L f).length
              = min 1000 (L.filter (fun r => f ≤ r.blockNumber)).length := by
            unfold page
            exact List.length_take 1000 _
          omega
        have : page L f = L.filter (fun r => f ≤ r.blockNumber) :=
          List.take_of_length_le (by omega)
        rw [this]
        exact ⟨[f], rfl⟩

/-- Whatever the fuel and cursor, the records returned from a block-ascending
duplicate-free source contain no duplicates, and all lie at or past the
cursor. -/
theorem fetch_logs_nodup {L : List Rec} (hp : L.Pairwise blockLE) (hnd : L.Nodup) :
    ∀ fuel f reqs recs, fetch_logs (mkSource L) fuel f = some (reqs, recs) →
      recs.Nodup ∧ ∀ r ∈ recs, f ≤ r.blockNumber := by
  intro fuel
  induction fuel with
  | zero =>
    intro f reqs recs h
    exact absurd h (by simp [fetch_logs])
  | succ n ih =>
    intro f reqs recs h
    rw [fetch_logs_mkSource_succ] at h
    by_cases hpage : page L f = []
    · rw [if_pos hpage] at h
      cases h
      exact ⟨List.nodup_nil, by simp⟩
    · rw [if_neg hpage] at h
      by_cases hfull : 1000 ≤ (page L f).length
      · rw [if_pos hfull] at h
        cases hrec : fetch_logs (mkSource L) n (lastBlockOf (page L f) + 1) with
        | none => rw [hrec] at h; cases h
        | some p =>
          rw [hrec] at h
          obtain ⟨reqs', recs'⟩ := p
          obtain ⟨ih1, ih2⟩ := ih _ _ _ hrec
          have hrecs : recs = page L f ++ recs' := by
            cases h; rfl
          subst hrecs
          have hfB : f ≤ lastBlockOf (page L f) := f_le_lastBlockOf_page hpage
          constructor
          · rw [List.nodup_append]
            refine ⟨List.Nodup.sublist (page_sublist L f) hnd, ih1, ?_⟩
            intro r hrp hrr
            have h1 := mem_page_le hp hrp
            have h2 := ih2 r hrr
            omega
          · intro r hr
            rcases List.mem_append.mp hr with h1 | h1
            · exact mem_page_ge h1
            · have := ih2 r h1
              omega
      · rw [if_neg hfull] at h
        have hrecs : recs = page L f := by cases h; rfl
        subst hrecs
        exact ⟨List.Nodup.sublist (page_sublist L f) hnd,
          fun r hr => mem_page_ge hr⟩

/-- C2, amended: for a block-ascending duplicate-free source, (i) a source
with exactly the 1000-record page cap causes exactly two requests, the second
with the cursor at the last record's block + 1; (ii) a source with fewer than
1000 records is retrieved with exactly one request; (iii) no record ever
appears twice in the returned sequence; (iv) provided the page cap never cuts
inside a block (`NoSplitPages`), no record is skipped — the returned sequence
is exactly the source.  (Without the no-split proviso a record can be
skipped: see `fetch_logs_skips_boundary_record`.) -/
theorem fetch_logs_pagination (L : List Rec) (hsort : SortedBlocks L)
    (hnd : L.Nodup) :
    (L.length = 1000 → ∀ fuel, fetch_logs (mkSource L) (fuel + 2) 0
        = some ([0, lastBlockOf L + 1], L))
    ∧ (L.length < 1000 → ∀ fuel, fetch_logs (mkSource L) (fuel + 1) 0
        = some ([0], L))
    ∧ (∀ fuel f reqs recs,
        fetch_logs (mkSource L) fuel f = some (reqs, recs) → recs.Nodup)
    ∧ (NoSplitPages L → ∃ reqs,
        fetch_logs (mkSource L) (lastBlockOf L + 2) 0 = some (reqs, L)) := by
  have hp : L.Pairwise blockLE := List.chain'_iff_pairwise.mp hsort
  have hfilter0 : L.filter (fun r => decide (0 ≤ r.blockNumber)) = L :=
    List.filter_eq_self.mpr (fun a _ => by simp)
  have hpage0 : L.length ≤ 1000 → page L 0 = L := by
    intro hlen
    unfold page
    rw [hfilter0]
    exact List.take_of_length_le hlen
  refine ⟨?_, ?_, ?_, ?_⟩
  · intro hlen fuel
    have hpg : page L 0 = L := hpage0 (by omega)
    have hLne : L ≠ [] := by
      intro h
      subst h
      simp at hlen
    have hpage2 : page L (lastBlockOf L + 1) = [] := by
      have hnil : L.filter (fun r => decide (lastBlockOf L + 1 ≤ r.blockNumber))
          = [] := by
        rw [List.filter_eq_nil_iff]
        intro r hr
        have := le_lastBlockOf hp hr
        simp only [decide_eq_true_eq]
        omega
      unfold page
      rw [hnil]
      rfl
    show fetch_logs (mkSource L) (fuel + 1 + 1) 0 = _
    rw [fetch_logs_mkSource_succ, hpg, if_neg hLne,
      if_pos (by omega : 1000 ≤ L.length)]
    rw [fetch_logs_mkSource_succ, if_pos hpage2]
    show some (0 :: [lastBlockOf L + 1], L ++ []) = _
    simp
  · intro hlen fuel
    have hpg : page L 0 = L := hpage0 (by omega)
    rw [fetch_logs_mkSource_succ, hpg]
    by_cases hLnil : L = []
    · subst hLnil
      simp
    · rw [if_neg hLnil, if_neg (by omega : ¬1000 ≤ L.length)]
  · intro fuel f reqs recs h
    exact (fetch_logs_nodup hp hnd fuel f reqs recs h).1
  · intro hsplit
    obtain ⟨reqs, heq⟩ :=
      fetch_logs_complete hp hnd hsplit (lastBlockOf L + 2) 0 (by omega) (by omega)
    refine ⟨reqs, ?_⟩
    rw [heq, hfilter0]

/-- Witness for `fetch_logs_pagination`: a concrete two-record source is
retrieved whole with a single request. -/
theorem fetch_logs_pagination_witness :
    fetch_logs (mkSource [⟨1, 0⟩, ⟨2, 1⟩]) 1 0 = some ([0], [⟨1, 0⟩, ⟨2, 1⟩]) :=
  (fetch_logs_pagination [⟨1, 0⟩, ⟨2, 1⟩] (by decide) (by decide)).2.1
    (by decide) 0

/-! ## Event decoding (C6, C7) -/

/-- Big-endian value of a byte string: `int(h, 16)` applied to the
corresponding hex string (two hex characters per byte). -/
def byteVal (bs : List Nat) : Nat := bs.foldl (fun acc b => 256 * acc + b) 0

/-- Embedding of `decode_word` (identical in all three scripts):

    def decode_word(data: str, index: int) -> int:
        start = 2 + index * 64
        return int(data[start : start + 64], 16)

`data` is the payload after the `"0x"` prefix, modelled at byte level (two
hex characters = one byte, so the 64-hex-character slice is 32 bytes).
Python's `int(s, 16)` raises a bare `ValueError` on the empty slice —
modelled as `none`; on a shorter-than-expected non-empty slice it silently
parses whatever characters are present — modelled as `some` of the partial
value. -/
def decode_word (data : List Nat) (index : Nat) : Option Nat :=
  if (data.drop (32 * index)).take 32 = [] then none
  else some (byteVal ((data.drop (32 * index)).take 32))

/-- C6, counterexample: the two-byte payload `0x1234` matches no event
kind's expected shape, yet `decode_word` returns the silently parsed partial
field value `some 4660` — no `MalformedEventError` (no error of any kind) is
signalled.  Indeed no such error type exists anywhere in the scripts. -/
theorem decode_word_partial_value :
    decode_word [18, 52] 0 = some 4660 ∧ [18, 52].length ≠ 32 := by
  refine ⟨rfl, by decide⟩

/-- C6, amended: `decode_word` performs no shape validation.  On a payload
too short to reach the requested word it raises a bare `ValueError`
(modelled `none`) carrying no record; on a payload that reaches the word but
ends before its 32 bytes it silently returns the partial field value.  No
`MalformedEventError` exists and no diagnostic carries the raw record. -/
theorem decode_word_no_shape_check (data : List Nat) (index : Nat)
    (hshort : data.length < 32 * index + 32) :
    (data.length ≤ 32 * index → decode_word data index = none)
    ∧ (32 * index < data.length →
        decode_word data index = some (byteVal (data.drop (32 * index)))) := by
  constructor
  · intro hle
    have hnil : data.drop (32 * index) = [] := by
      rw [List.drop_eq_nil_iff]
      exact hle
    unfold decode_word
    rw [hnil]
    rfl
  · intro hlt
    have hall : (data.drop (32 * index)).take 32 = data.drop (32 * index) := by
      apply List.take_of_length_le
      rw [List.length_drop]
      omega
    have hne : data.drop (32 * index) ≠ [] := by
      rw [← List.length_pos_iff_ne_nil, List.length_drop]
      omega
    unfold decode_word
    rw [hall, if_neg hne]

/-- Witness for `decode_word_no_shape_check` on the concrete short payload
`0x1234`. -/
theorem decode_word_no_shape_check_witness :
    decode_word [18, 52] 0 = some (byteVal ([18, 52].drop (32 * 0))) :=
  (decode_word_no_shape_check [18, 52] 0 (by decide)).2 (by decide)

/-- Computes `⌊log₂ n⌋` by structural recursion on explicit fuel (so that it reduces
in the kernel; at most `⌊log₂ n⌋` + 1 steps are ever taken). -/
def log2fuel : Nat → Nat → Nat
  | 0, _ => 0
  | fuel + 1, n => if 2 ≤ n then log2fuel fuel (n / 2) + 1 else 0

/-- Floor of `log₂ n` (0 for `n = 0`). -/
def floorLog2 (n : Nat) : Nat := log2fuel n n

/-- Floor of `log₂ (a / b)` for positive naturals `a`, `b`. -/
def ilog2 (a b : Nat) : Int :=
  if b ≤ a then (floorLog2 (a / b) : Int)
  else if b ≤ a * 2 ^ floorLog2 (b / a) then -(floorLog2 (b / a) : Int)
  else -((floorLog2 (b / a) : Int) + 1)

/-- Round `num / den` to the nearest integer, ties to even. -/
def roundHalfEven (num den : Nat) : Nat :=
  if 2 * (num % den) < den then num / den
  else if den < 2 * (num % den) then num / den + 1
  else if num / den % 2 = 0 then num / den else num / den + 1

/-- The IEEE-754 binary64 value of `a / b`, as an exact rational: the true
quotient rounded to 53 significant bits, round-to-nearest ties-to-even.
This models Python's `int / int` float division (correctly rounded per IEEE
754) in the normal range, which every token amount in this system
inhabits. -/
def float_div (a b : Nat) : ℚ :=
  if a = 0 ∨ b = 0 then 0
  else if 52 ≤ ilog2 a b then
    (roundHalfEven a (b * 2 ^ (ilog2 a b - 52).toNat) : ℚ)
      * 2 ^ (ilog2 a b - 52).toNat
  else
    (roundHalfEven (a * 2 ^ (52 - ilog2 a b).toNat) b : ℚ)
      / 2 ^ (52 - ilog2 a b).toNat

/-- One raw log record as consumed by the parsers/projectors: block number
and timestamp already as integers (`int(h, 16)` of the hex fields), topics
and data payload at byte level.  The transaction hash is omitted — no
claim-relevant code path inspects it. -/
structure RawLog where
  blockNumber : Nat
  timeStamp : Nat
  topics : List (List Nat)
  data : List Nat
deriving DecidableEq, Repr

/-- The constant `DECIMALS = 18` (all three scripts). -/
def DECIMALS : Nat := 18

/-- Total wrapper for `decode_word` as the parsers use it (on well-formed
payloads the slice is non-empty, so the default is never consulted). -/
def decodeWordD (data : List Nat) (index : Nat) : Nat :=
  (decode_word data index).getD 0

/-- One output row of `parse_deposits` in `enso_staking_tracker.py`, reduced
to its numeric/event fields (the `datetime` presentation column is derived
downstream). -/
structure DepositRow where
  block : Nat
  timestamp : Nat
  event : String
  position_id : Nat
  amount_raw : Nat
  amount : ℚ
  stake_raw : Nat
  stake : ℚ
  net_flow : ℚ
deriving DecidableEq, Repr

/-- Embedding of `parse_deposits` from `enso_staking_tracker.py`:
`FundsDeposited(uint256 indexed positionId, uint256 fundsAdded, uint256
stakeAdded)`; the scaled columns divide by `10**DECIMALS` in Python `float`
arithmetic, modelled by `float_div`. -/
def parse_deposits (logs : List RawLog) : List DepositRow :=
  logs.map (fun log =>
    { block := log.blockNumber
      timestamp := log.timeStamp
      event := "FundsDeposited"
      position_id := byteVal (log.topics.getD 1 [])
      amount_raw := decodeWordD log.data 0
      amount := float_div (decodeWordD log.data 0) (10 ^ DECIMALS)
      stake_raw := decodeWordD log.data 1
      stake := float_div (decodeWordD log.data 1) (10 ^ DECIMALS)
      net_flow := float_div (decodeWordD log.data 0) (10 ^ DECIMALS) })

/-- The 32-byte big-endian word encoding `n` — the synthetic encoder of the
spec's round-trip property. -/
def wordOfNat (n : Nat) : List Nat :=
  (List.range 32).map (fun i => n / 256 ^ (31 - i) % 256)

/-- The synthetic deposit log of the round-trip property:
`amount = 1234567890123456789` raw units, `stake = 5`, position id 7. -/
def depLog : RawLog :=
  { blockNumber := 100
    timeStamp := 1700000000
    topics := [[], wordOfNat 7]
    data := wordOfNat 1234567890123456789 ++ wordOfNat 5 }

theorem decodeWordD_depLog_amount :
    decodeWordD depLog.data 0 = 1234567890123456789 := by decide

theorem float_div_amount :
    float_div 1234567890123456789 (10 ^ DECIMALS)
      = (5559999489923579 : ℚ) / 2 ^ 52 := by
  have h2 : ilog2 1234567890123456789 (10 ^ DECIMALS) = 0 := by decide
  have h3 : roundHalfEven (1234567890123456789 * 2 ^ 52) (10 ^ DECIMALS)
      = 5559999489923579 := by decide
  unfold float_div
  rw [if_neg (by decide : ¬(1234567890123456789 = 0 ∨ 10 ^ DECIMALS = 0)), h2,
    if_neg (by decide : ¬(52 : Int) ≤ 0)]
  show (roundHalfEven (1234567890123456789 * 2 ^ (52 : Nat)) (10 ^ DECIMALS) : ℚ)
      / 2 ^ (52 : Nat) = _
  rw [h3]
  norm_num

theorem binary64_not_exact :
    (5559999489923579 : ℚ) / 2 ^ 52 ≠ (1234567890123456789 : ℚ) / 10 ^ 18 := by
  norm_num

/-- C7, counterexample: decoding the synthetic
`amount = 1234567890123456789, decimals = 18` word does **not** yield the
exact quotient `1234567890123456789 / 10^18` as the scaled amount — the
scripts divide in Python `float`, and `1.234567890123456789` is not
representable in binary64. -/
theorem parse_deposits_amount_rounds :
    (parse_deposits [depLog]).map (fun r => r.amount)
      ≠ [(1234567890123456789 : ℚ) / 10 ^ 18] := by
  simp only [parse_deposits, List.map_cons, List.map_nil,
    decodeWordD_depLog_amount, float_div_amount]
  simpa using binary64_not_exact

/-- C7, amended: decoding the synthetic word retains `1234567890123456789`
exactly as the raw integer (`amount_raw`), but the scaled `amount` is the
binary64 rounding `5559999489923579 / 2^52` (≈ 1.2345678901234567) of the
quotient, not the exact quotient `1234567890123456789 / 10^18`. -/
theorem parse_deposits_round_trip :
    (parse_deposits [depLog]).map (fun r => (r.amount_raw, r.amount))
      = [(1234567890123456789, (5559999489923579 : ℚ) / 2 ^ 52)]
    ∧ (5559999489923579 : ℚ) / 2 ^ 52 ≠ (1234567890123456789 : ℚ) / 10 ^ 18 := by
  constructor
  · simp only [parse_deposits, List.map_cons, List.map_nil,
      decodeWordD_depLog_amount, float_div_amount]
  · exact binary64_not_exact

/-! ## State projection (C3, C4, C5, C8, C9)

The positions pass of `enso_top_stakers.main` (steps 1–4) and of
`dashboard.load_data` is the same code up to one function:
`addr_from_topic`, which is `Web3.to_checksum_address("0x" + topic[-40:])`
in the former and `"0x" + topic[-40:]` in the latter.  The owner-formatting
function `fmt`, applied to the 20 address bytes `topic[-40:]`, is therefore
a parameter of the shared embedding, and the owner field is polymorphic in
its output type.  Python `float` accumulation (`+=` / `-=`) is modelled as
exact rational addition of the per-event binary64-rounded amounts. -/

/-- Embedding of `bs.rstrip(b"\x00")` — strip trailing zero bytes. -/
def rstripZeros (bs : List Nat) : List Nat :=
  (bs.reverse.dropWhile (fun b => b = 0)).reverse

/-- One entry of the `positions` dict (`expiry_utc` / `unlock_remaining`
presentation columns of `enso_top_stakers` omitted — they are pure
formatting of `expiry_ts`). -/
structure Position (α : Type) where
  position_id : Nat
  expiry_ts : Nat
  validator : List Nat
  owner : Option α
  net_deposited : ℚ
  stake : ℚ
deriving DecidableEq, Repr

/-- The `positions` dict, as an insertion-ordered association list (updates
keep a key's slot, new keys append — Python 3.7+ dict semantics). -/
abbrev PosTable (α : Type) : Type := List (Nat × Position α)

/-- Embedding of `positions[pid] = value` — insert or overwrite. -/
def upsert {α : Type} : PosTable α → Nat → Position α → PosTable α
  | [], k, p => [(k, p)]
  | (k', p') :: rest, k, p =>
    if k' = k then (k, p) :: rest else (k', p') :: upsert rest k p

/-- Embedding of `if pid in positions: positions[pid] = f(positions[pid])` — conditional
in-place mutation. -/
def adjust {α : Type} (t : PosTable α) (k : Nat) (f : Position α → Position α) :
    PosTable α :=
  t.map (fun kp => if kp.1 = k then (kp.1, f kp.2) else kp)

/-- Embedding of `positions.get(pid)`. -/
def lookupT {α : Type} (t : PosTable α) (k : Nat) : Option (Position α) :=
  (t.find? (fun kp => kp.1 = k)).map (fun kp => kp.2)

/-- Embedding of `positions.keys()`. -/
def tkeys {α : Type} (t : PosTable α) : List Nat := t.map (fun kp => kp.1)

/-- Embedding of `h(log["topics"][1])` — the position id of a creation/deposit/withdrawal
log. -/
def pidOf (log : RawLog) : Nat := byteVal (log.topics.getD 1 [])

/-- Embedding of `h(log["data"][2:66])` — the `uint64` expiry read from the first data
word. -/
def expiryOf (log : RawLog) : Nat := byteVal (log.data.take 32)

/-- Embedding of `bytes.fromhex(log["topics"][2][2:]).rstrip(b"\x00")` — the validator
label (the `.decode("utf-8", errors="replace")` step is kept at byte
level; it is a total best-effort presentation step identical in both
scripts). -/
def validatorOf (log : RawLog) : List Nat := rstripZeros (log.topics.getD 2 [])

/-- Embedding of `h(log["topics"][3])` — the token id of a `Transfer` log. -/
def tokenOf (log : RawLog) : Nat := byteVal (log.topics.getD 3 [])

/-- Embedding of `topic[-40:]` — the 20 address bytes of a topic word. -/
def addrBytes (topic : List Nat) : List Nat := topic.drop (topic.length - 20)

/-- Embedding of `decode_word(log["data"], i) / 10**DECIMALS` — a scaled (binary64)
token amount. -/
def scaledWord (log : RawLog) (i : Nat) : ℚ :=
  float_div (decodeWordD log.data i) (10 ^ DECIMALS)

/-- The dict value inserted by the `PositionCreated` pass. -/
def freshPos {α : Type} (log : RawLog) : Position α :=
  { position_id := pidOf log
    expiry_ts := expiryOf log
    validator := validatorOf log
    owner := none
    net_deposited := 0
    stake := 0 }

/-- Pass 1: `for log in pc_logs: positions[pid] = {...}`. -/
def applyCreates {α : Type} (logs : List RawLog) (t : PosTable α) : PosTable α :=
  logs.foldl (fun t log => upsert t (pidOf log) (freshPos log)) t

/-- Pass 2: `for log in tr_logs: if token_id in positions:
positions[token_id]["owner"] = addr_from_topic(log["topics"][2])`. -/
def applyTransfers {α : Type} (fmt : List Nat → α) (logs : List RawLog)
    (t : PosTable α) : PosTable α :=
  logs.foldl (fun t log => adjust t (tokenOf log)
    (fun p => { p with owner := some (fmt (addrBytes (log.topics.getD 2 []))) })) t

/-- Pass 3: `for log in dep_logs: if pid in positions: net_deposited +=
funds_added; stake += stake_added`. -/
def applyDeposits {α : Type} (logs : List RawLog) (t : PosTable α) : PosTable α :=
  logs.foldl (fun t log => adjust t (pidOf log)
    (fun p => { p with
      net_deposited := p.net_deposited + scaledWord log 0
      stake := p.stake + scaledWord log 1 })) t

/-- Pass 4: `for log in wth_logs: if pid in positions: net_deposited -=
funds_removed`. -/
def applyWithdrawals {α : Type} (logs : List RawLog) (t : PosTable α) :
    PosTable α :=
  logs.foldl (fun t log => adjust t (pidOf log)
    (fun p => { p with net_deposited := p.net_deposited - scaledWord log 0 })) t

/-- The shared positions projection of `enso_top_stakers.main` and
`dashboard.load_data`: creations, then transfers, then deposits, then
withdrawals, starting from the empty dict. -/
def buildPositions {α : Type} (fmt : List Nat → α) (pc tr dep wth : List RawLog) :
    PosTable α :=
  applyWithdrawals wth (applyDeposits dep (applyTransfers fmt tr (applyCreates pc [])))

theorem lookupT_cons {α : Type} (a : Nat) (b : Position α) (rest : PosTable α)
    (k : Nat) :
    lookupT ((a, b) :: rest) k = if a = k then some b else lookupT rest k := by
  by_cases h : a = k <;> simp [lookupT, List.find?_cons, h]

theorem lookupT_upsert {α : Type} (k₀ k : Nat) (p : Position α) :
    ∀ t : PosTable α,
      lookupT (upsert t k₀ p) k = if k₀ = k then some p else lookupT t k := by
  intro t
  induction t with
  | nil =>
    by_cases h : k₀ = k <;> simp [upsert, lookupT_cons, lookupT, h]
  | cons kp rest ih =>
    obtain ⟨a, b⟩ := kp
    unfold upsert
    by_cases h1 : a = k₀
    · rw [if_pos h1, lookupT_cons, lookupT_cons]
      subst h1
      by_cases h2 : a = k <;> simp [h2]
    · rw [if_neg h1, lookupT_cons, lookupT_cons]
      by_cases h2 : a = k
      · have hk : k₀ ≠ k := fun he => h1 (h2.trans he.symm)
        simp [h2, hk]
      · simp [h2, ih]

theorem lookupT_adjust {α : Type} (k₀ k : Nat) (f : Position α → Position α) :
    ∀ t : PosTable α,
      lookupT (adjust t k₀ f) k
        = if k₀ = k then (lookupT t k).map f else lookupT t k := by
  intro t
  induction t with
  | nil => by_cases h : k₀ = k <;> simp [adjust, lookupT, h]
  | cons kp rest ih =>
    obtain ⟨a, b⟩ := kp
    have hadj : adjust ((a, b) :: rest) k₀ f
        = (if a = k₀ then (a, f b) else (a, b)) :: adjust rest k₀ f := by
      simp [adjust]
    rw [hadj]
    by_cases h1 : a = k₀
    · rw [if_pos h1]
      rw [lookupT_cons, lookupT_cons]
      subst h1
      by_cases h2 : a = k <;> simp [h2, ih]
    · rw [if_neg h1, lookupT_cons, lookupT_cons]
      by_cases h2 : a = k
      · have hk : k₀ ≠ k := fun he => h1 (h2.trans he.symm)
        simp [h2, hk]
      · simp [h2, ih]

/-- Per-key view of one conditional-mutation pass: folding `adjust` over a
log list acts pointwise on the looked-up entry. -/
theorem lookupT_foldl_adjust {α : Type} (key : RawLog → Nat)
    (g : RawLog → Position α → Position α) :
    ∀ (logs : List RawLog) (t : PosTable α) (k : Nat),
      lookupT (logs.foldl (fun t log => adjust t (key log) (g log)) t) k
        = (lookupT t k).map
            (fun p => logs.foldl
              (fun p log => if key log = k then g log p else p) p) := by
  intro logs
  induction logs with
  | nil =>
    intro t k
    cases hq : lookupT t k <;> simp [hq]
  | cons l logs ih =>
    intro t k
    simp only [List.foldl_cons]
    rw [ih, lookupT_adjust]
    by_cases h : key l = k
    · rw [if_pos h]
      cases hq : lookupT t k <;> simp [h]
    · rw [if_neg h]
      cases hq : lookupT t k <;> simp [h]

theorem tkeys_adjust {α : Type} (t : PosTable α) (k : Nat)
    (f : Position α → Position α) : tkeys (adjust t k f) = tkeys t := by
  unfold tkeys adjust
  rw [List.map_map]
  apply List.map_congr_left
  intro kp _
  by_cases h : kp.1 = k <;> simp [h]

theorem tkeys_foldl_adjust {α : Type} (key : RawLog → Nat)
    (g : RawLog → Position α → Position α) :
    ∀ (logs : List RawLog) (t : PosTable α),
      tkeys (logs.foldl (fun t log => adjust t (key log) (g log)) t) = tkeys t := by
  intro logs
  induction logs with
  | nil => intro t; rfl
  | cons l logs ih =>
    intro t
    rw [List.foldl_cons, ih, tkeys_adjust]

theorem adjust_of_not_mem {α : Type} (t : PosTable α) (k : Nat)
    (f : Position α → Position α) (h : k ∉ tkeys t) : adjust t k f = t := by
  unfold adjust
  have hcongr : ∀ kp ∈ t, (if kp.1 = k then (kp.1, f kp.2) else kp) = kp := by
    intro kp hkp
    rw [if_neg]
    intro he
    exact h (he ▸ List.mem_map_of_mem (fun kp => kp.1) hkp)
  rw [List.map_congr_left hcongr, List.map_id']

theorem tkeys_upsert_mem {α : Type} (k : Nat) (p : Position α) :
    ∀ (t : PosTable α) (k' : Nat),
      k' ∈ tkeys (upsert t k p) ↔ k' = k ∨ k' ∈ tkeys t := by
  intro t
  induction t with
  | nil => intro k'; simp [upsert, tkeys]
  | cons kp rest ih =>
    obtain ⟨a, b⟩ := kp
    intro k'
    unfold upsert
    by_cases h1 : a = k
    · rw [if_pos h1]
      subst h1
      simp [tkeys]
    · rw [if_neg h1]
      simp only [tkeys, List.map_cons, List.mem_cons] at ih ⊢
      rw [ih]
      tauto

theorem mem_tkeys_applyCreates {α : Type} :
    ∀ (pc : List RawLog) (t : PosTable α) (k : Nat),
      k ∈ tkeys (applyCreates pc t) ↔ k ∈ tkeys t ∨ ∃ l ∈ pc, pidOf l = k := by
  intro pc
  induction pc with
  | nil => intro t k; simp [applyCreates]
  | cons c pc ih =>
    intro t k
    unfold applyCreates at ih ⊢
    rw [List.foldl_cons, ih, tkeys_upsert_mem]
    simp only [List.mem_cons]
    constructor
    · rintro ((h | h) | ⟨l, hl, hp⟩)
      · exact Or.inr ⟨c, Or.inl rfl, h.symm⟩
      · exact Or.inl h
      · exact Or.inr ⟨l, Or.inr hl, hp⟩
    · rintro (h | ⟨l, (rfl | hl), hp⟩)
      · exact Or.inl (Or.inr h)
      · exact Or.inl (Or.inl hp.symm)
      · exact Or.inr ⟨l, hl, hp⟩

theorem applyCreates_append {α : Type} (pc : List RawLog) (c : RawLog)
    (t : PosTable α) :
    applyCreates (pc ++ [c]) t
      = upsert (applyCreates pc t) (pidOf c) (freshPos c) := by
  unfold applyCreates
  rw [List.foldl_append]
  rfl

theorem mem_upsert {α : Type} (k : Nat) (p : Position α) :
    ∀ (t : PosTable α) (kp : Nat × Position α),
      kp ∈ upsert t k p → kp = (k, p) ∨ kp ∈ t := by
  intro t
  induction t with
  | nil =>
    intro kp h
    simp [upsert] at h
    exact Or.inl h
  | cons ab rest ih =>
    obtain ⟨a, b⟩ := ab
    intro kp h
    unfold upsert at h
    by_cases h1 : a = k
    · rw [if_pos h1] at h
      rcases List.mem_cons.mp h with h2 | h2
      · exact Or.inl h2
      · exact Or.inr (List.mem_cons_of_mem _ h2)
    · rw [if_neg h1] at h
      rcases List.mem_cons.mp h with h2 | h2
      · exact Or.inr (h2 ▸ List.mem_cons_self _ _)
      · rcases ih kp h2 with h3 | h3
        · exact Or.inl h3
        · exact Or.inr (List.mem_cons_of_mem _ h3)

/-- Every entry the creation pass produces starts with no owner and zero
balances. -/
theorem applyCreates_zero_fields {α : Type} :
    ∀ (pc : List RawLog) (t : PosTable α),
      (∀ kp ∈ t, kp.2.owner = none ∧ kp.2.net_deposited = 0 ∧ kp.2.stake = 0) →
      ∀ kp ∈ applyCreates pc t,
        kp.2.owner = none ∧ kp.2.net_deposited = 0 ∧ kp.2.stake = 0 := by
  intro pc
  induction pc with
  | nil => intro t h kp hkp; exact h kp hkp
  | cons c pc ih =>
    intro t h kp hkp
    unfold applyCreates at hkp
    rw [List.foldl_cons] at hkp
    refine ih (upsert t (pidOf c) (freshPos c)) ?_ kp hkp
    intro kp' hkp'
    rcases mem_upsert (pidOf c) (freshPos c) t kp' hkp' with h2 | h2
    · subst h2
      exact ⟨rfl, rfl, rfl⟩
    · exact h kp' h2

theorem lookupT_eq_some_mem {α : Type} (t : PosTable α) (k : Nat)
    (p : Position α) (h : lookupT t k = some p) : (k, p) ∈ t := by
  unfold lookupT at h
  cases hf : t.find? (fun kp => kp.1 = k) with
  | none => rw [hf] at h; cases h
  | some kp =>
    rw [hf] at h
    have hm : kp ∈ t := List.mem_of_find?_eq_some hf
    have hk : kp.1 = k := by
      have := List.find?_some hf
      simpa using this
    have hp : kp.2 = p := by simpa using h
    have hkp : kp = (k, p) := Prod.ext hk hp
    rwa [hkp] at hm

theorem lookupT_isSome_of_mem_tkeys {α : Type} :
    ∀ (t : PosTable α) (k : Nat), k ∈ tkeys t → ∃ p, lookupT t k = some p := by
  intro t
  induction t with
  | nil => intro k h; simp [tkeys] at h
  | cons ab rest ih =>
    obtain ⟨a, b⟩ := ab
    intro k h
    rw [lookupT_cons]
    by_cases h1 : a = k
    · exact ⟨b, if_pos h1⟩
    · rw [if_neg h1]
      apply ih
      simp only [tkeys, List.map_cons, List.mem_cons] at h
      rcases h with h | h
      · exact absurd h.symm h1
      · exact h

/-- Owner value after the transfer pass, per key: the last matching transfer
wins, an untouched key keeps its previous owner. -/
def ownerFold {α : Type} (fmt : List Nat → α) (tr : List RawLog) (k : Nat)
    (o : Option α) : Option α :=
  tr.foldl (fun o log => if tokenOf log = k
    then some (fmt (addrBytes (log.topics.getD 2 []))) else o) o

/-- Net deposits accumulated for key `k` over the deposit pass. -/
def depNet (dep : List RawLog) (k : Nat) (x : ℚ) : ℚ :=
  dep.foldl (fun x log => if pidOf log = k then x + scaledWord log 0 else x) x

/-- Stake weight accumulated for key `k` over the deposit pass. -/
def depStake (dep : List RawLog) (k : Nat) (x : ℚ) : ℚ :=
  dep.foldl (fun x log => if pidOf log = k then x + scaledWord log 1 else x) x

/-- Net balance after the withdrawal pass for key `k`. -/
def wthNet (wth : List RawLog) (k : Nat) (x : ℚ) : ℚ :=
  wth.foldl (fun x log => if pidOf log = k then x - scaledWord log 0 else x) x

theorem transfer_fold_fields {α : Type} (fmt : List Nat → α) (k : Nat) :
    ∀ (tr : List RawLog) (p : Position α),
      tr.foldl (fun p log => if tokenOf log = k
          then { p with owner := some (fmt (addrBytes (log.topics.getD 2 []))) }
          else p) p
        = { p with owner := ownerFold fmt tr k p.owner } := by
  intro tr
  induction tr with
  | nil => intro p; rfl
  | cons l tr ih =>
    intro p
    unfold ownerFold
    simp only [List.foldl_cons]
    by_cases h : tokenOf l = k
    · rw [if_pos h, if_pos h, ih]
      rfl
    · rw [if_neg h, if_neg h, ih]
      rfl

theorem deposit_fold_fields {α : Type} (k : Nat) :
    ∀ (dep : List RawLog) (p : Position α),
      dep.foldl (fun p log => if pidOf log = k
          then { p with
            net_deposited := p.net_deposited + scaledWord log 0
            stake := p.stake + scaledWord log 1 }
          else p) p
        = { p with
            net_deposited := depNet dep k p.net_deposited
            stake := depStake dep k p.stake } := by
  intro dep
  induction dep with
  | nil => intro p; rfl
  | cons l dep ih =>
    intro p
    unfold depNet depStake
    simp only [List.foldl_cons]
    by_cases h : pidOf l = k
    · rw [if_pos h, if_pos h, if_pos h, ih]
      rfl
    · rw [if_neg h, if_neg h, if_neg h, ih]
      rfl

theorem withdrawal_fold_fields {α : Type} (k : Nat) :
    ∀ (wth : List RawLog) (p : Position α),
      wth.foldl (fun p log => if pidOf log = k
          then { p with net_deposited := p.net_deposited - scaledWord log 0 }
          else p) p
        = { p with net_deposited := wthNet wth k p.net_deposited } := by
  intro wth
  induction wth with
  | nil => intro p; rfl
  | cons l wth ih =>
    intro p
    unfold wthNet
    simp only [List.foldl_cons]
    by_cases h : pidOf l = k
    · rw [if_pos h, if_pos h, ih]
      rfl
    · rw [if_neg h, if_neg h, ih]
      rfl

/-- Per-key characterization of the whole projection: the final entry for a
key is the (last) created entry with owner set by the transfer fold and
balances set by the deposit/withdrawal folds. -/
theorem lookupT_buildPositions {α : Type} (fmt : List Nat → α)
    (pc tr dep wth : List RawLog) (k : Nat) :
    lookupT (buildPositions fmt pc tr dep wth) k
      = (lookupT (applyCreates pc []) k).map (fun p =>
          { p with
            owner := ownerFold fmt tr k p.owner
            net_deposited := wthNet wth k (depNet dep k p.net_deposited)
            stake := depStake dep k p.stake }) := by
  unfold buildPositions applyWithdrawals applyDeposits applyTransfers
  rw [lookupT_foldl_adjust, lookupT_foldl_adjust, lookupT_foldl_adjust]
  cases hq : lookupT (applyCreates pc []) k with
  | none => rfl
  | some p =>
    simp only [Option.map_some']
    rw [transfer_fold_fields, deposit_fold_fields, withdrawal_fold_fields]

/-- One row of `dashboard.load_data`'s flow DataFrame. -/
structure FlowRow where
  block : Nat
  timestamp : Nat
  event : String
  amount : ℚ
  net_flow : ℚ
deriving DecidableEq, Repr

/-- A `FundsDeposited` flow row: `net_flow = +funds`. -/
def depositFlowRow (log : RawLog) : FlowRow :=
  { block := log.blockNumber
    timestamp := log.timeStamp
    event := "Deposit"
    amount := scaledWord log 0
    net_flow := scaledWord log 0 }

/-- A `FundsWithdrawn` flow row: `net_flow = -funds`. -/
def withdrawalFlowRow (log : RawLog) : FlowRow :=
  { block := log.blockNumber
    timestamp := log.timeStamp
    event := "Withdrawal"
    amount := scaledWord log 0
    net_flow := -scaledWord log 0 }

/-- A `RewardsIssued` flow row: zero net flow. -/
def rewardsIssuedFlowRow (log : RawLog) : FlowRow :=
  { block := log.blockNumber
    timestamp := log.timeStamp
    event := "Rewards Issued"
    amount := scaledWord log 0
    net_flow := 0 }

/-- A `RewardsWithdrawn` flow row: zero net flow. -/
def rewardsWithdrawnFlowRow (log : RawLog) : FlowRow :=
  { block := log.blockNumber
    timestamp := log.timeStamp
    event := "Rewards Withdrawn"
    amount := scaledWord log 0
    net_flow := 0 }

/-- The flow rows of `dashboard.load_data`, in construction order (deposits,
withdrawals, rewards issued, rewards withdrawn). -/
def flowRows (dep wth ri rw : List RawLog) : List FlowRow :=
  dep.map depositFlowRow ++ wth.map withdrawalFlowRow
    ++ ri.map rewardsIssuedFlowRow ++ rw.map rewardsWithdrawnFlowRow

/-- Insert `x` into `l` before the first element `y` with `le x y`. -/
def insertBy {β : Type} (le : β → β → Bool) (x : β) : List β → List β
  | [] => [x]
  | y :: ys => if le x y then x :: y :: ys else y :: insertBy le x ys

/-- Insertion sort.  pandas `sort_values` uses quicksort; every claim about
sorted output here depends only on the output being a permutation of the
input, so a structurally recursive sort is used. -/
def sortBy {β : Type} (le : β → β → Bool) : List β → List β
  | [] => []
  | x :: xs => insertBy le x (sortBy le xs)

theorem perm_insertBy {β : Type} (le : β → β → Bool) (x : β) :
    ∀ l : List β, (insertBy le x l).Perm (x :: l) := by
  intro l
  induction l with
  | nil => rfl
  | cons y ys ih =>
    unfold insertBy
    by_cases h : le x y = true
    · rw [if_pos h]
    · rw [if_neg h]
      exact (ih.cons y).trans (List.Perm.swap x y ys)

theorem perm_sortBy {β : Type} (le : β → β → Bool) :
    ∀ l : List β, (sortBy le l).Perm l := by
  intro l
  induction l with
  | nil => rfl
  | cons x xs ih =>
    exact (perm_insertBy le x (sortBy le xs)).trans (ih.cons x)

/-- Embedding of `flow_df.sort_values("block")` — the net-flow series, sorted by block
(the cumulative column is its prefix sum downstream). -/
def flowSeries (dep wth ri rw : List RawLog) : List FlowRow :=
  sortBy (fun a b => a.block ≤ b.block) (flowRows dep wth ri rw)

/-- C4: a `FundsDeposited` log whose position id was never created (no
`PositionCreated` log for it in `pc`) leaves the positions table exactly
unchanged — in particular unchanged in position count — yet still
contributes its `net_flow = +amount` sample to the net-flow series (the
flow DataFrame is built from the deposit logs unconditionally). -/
theorem deposit_unknown_id {α : Type} (fmt : List Nat → α)
    (pc tr dep wth ri rw : List RawLog) (d : RawLog)
    (hunk : ∀ l ∈ pc, pidOf l ≠ pidOf d) :
    buildPositions fmt pc tr (dep ++ [d]) wth = buildPositions fmt pc tr dep wth
    ∧ (buildPositions fmt pc tr (dep ++ [d]) wth).length
        = (buildPositions fmt pc tr dep wth).length
    ∧ depositFlowRow d ∈ flowSeries (dep ++ [d]) wth ri rw := by
  have htab : buildPositions fmt pc tr (dep ++ [d]) wth
      = buildPositions fmt pc tr dep wth := by
    unfold buildPositions
    congr 1
    unfold applyDeposits
    rw [List.foldl_append]
    simp only [List.foldl_cons, List.foldl_nil]
    apply adjust_of_not_mem
    rw [tkeys_foldl_adjust]
    unfold applyTransfers
    rw [tkeys_foldl_adjust]
    intro hmem
    rw [mem_tkeys_applyCreates] at hmem
    rcases hmem with h | ⟨l, hl, hp⟩
    · simp [tkeys] at h
    · exact hunk l hl hp
  refine ⟨htab, by rw [htab], ?_⟩
  have hmem : depositFlowRow d ∈ flowRows (dep ++ [d]) wth ri rw := by
    unfold flowRows
    apply List.mem_append_left
    apply List.mem_append_left
    apply List.mem_append_left
    rw [List.map_append]
    apply List.mem_append_right
    simp
  exact ((perm_sortBy (fun a b => a.block ≤ b.block) _).mem_iff).mpr hmem

/-- A creation log for position id 7 (expiry word 11). -/
def creLog7 : RawLog :=
  { blockNumber := 1, timeStamp := 10, topics := [[], [7], [118, 49]],
    data := wordOfNat 11 }

/-- A second creation log for the same position id 7 (expiry word 22). -/
def creLog7' : RawLog :=
  { blockNumber := 2, timeStamp := 20, topics := [[], [7], [118, 50]],
    data := wordOfNat 22 }

/-- A deposit log for the never-created position id 99. -/
def depLog99 : RawLog :=
  { blockNumber := 5, timeStamp := 50, topics := [[], [99]],
    data := wordOfNat 3 ++ wordOfNat 4 }

/-- Witness for `deposit_unknown_id`: one created position (id 7), a deposit
for the unknown id 99. -/
theorem deposit_unknown_id_witness :
    buildPositions (fun a => a) [creLog7] [] [depLog99] []
        = buildPositions (fun a => a) [creLog7] [] [] []
    ∧ (buildPositions (fun a => a) [creLog7] [] [depLog99] []).length
        = (buildPositions (fun a => a) [creLog7] [] [] []).length
    ∧ depositFlowRow depLog99 ∈ flowSeries [depLog99] [] [] [] := by
  have h := deposit_unknown_id (fun a => a) [creLog7] [] [] [] [] []
    depLog99 (by decide)
  simpa using h

/-- C5: a duplicate `PositionCreated` for an id already in the table raises
no error (the projection is total) and overwrites the immutable fields
(`expiry_ts`, `validator`) with the later event's values, while the
position's owner, net_deposited and stake after the full projection are
exactly what they are without the duplicate — no accumulated data is lost,
because all creations are processed before any transfer/deposit/withdrawal
and a creation resets only fields that are still unset/zero at that point. -/
theorem duplicate_creation_overwrites {α : Type} (fmt : List Nat → α)
    (pc tr dep wth : List RawLog) (c : RawLog)
    (hdup : pidOf c ∈ tkeys (applyCreates pc ([] : PosTable α))) :
    ∃ p q,
      lookupT (buildPositions fmt pc tr dep wth) (pidOf c) = some p
      ∧ lookupT (buildPositions fmt (pc ++ [c]) tr dep wth) (pidOf c) = some q
      ∧ q.expiry_ts = expiryOf c
      ∧ q.validator = validatorOf c
      ∧ q.owner = p.owner
      ∧ q.net_deposited = p.net_deposited
      ∧ q.stake = p.stake := by
  obtain ⟨p₀, hp₀⟩ := lookupT_isSome_of_mem_tkeys _ _ hdup
  obtain ⟨ho, hn, hs⟩ := applyCreates_zero_fields pc []
    (fun kp h => absurd h (List.not_mem_nil kp)) _ (lookupT_eq_some_mem _ _ _ hp₀)
  have ho' : p₀.owner = none := ho
  have hn' : p₀.net_deposited = 0 := hn
  have hs' : p₀.stake = 0 := hs
  have hq₀ : lookupT (applyCreates (pc ++ [c]) ([] : PosTable α)) (pidOf c)
      = some (freshPos c) := by
    rw [applyCreates_append, lookupT_upsert, if_pos rfl]
  have hP : lookupT (buildPositions fmt pc tr dep wth) (pidOf c)
      = some { p₀ with
          owner := ownerFold fmt tr (pidOf c) p₀.owner
          net_deposited := wthNet wth (pidOf c) (depNet dep (pidOf c) p₀.net_deposited)
          stake := depStake dep (pidOf c) p₀.stake } := by
    rw [lookupT_buildPositions, hp₀]
    rfl
  have hQ : lookupT (buildPositions fmt (pc ++ [c]) tr dep wth) (pidOf c)
      = some { (freshPos c : Position α) with
          owner := ownerFold fmt tr (pidOf c) (freshPos c : Position α).owner
          net_deposited := wthNet wth (pidOf c)
            (depNet dep (pidOf c) (freshPos c : Position α).net_deposited)
          stake := depStake dep (pidOf c) (freshPos c : Position α).stake } := by
    rw [lookupT_buildPositions, hq₀]
    rfl
  refine ⟨_, _, hP, hQ, rfl, rfl, ?_, ?_, ?_⟩
  · show ownerFold fmt tr (pidOf c) (freshPos c : Position α).owner
      = ownerFold fmt tr (pidOf c) p₀.owner
    rw [ho']
    rfl
  · show wthNet wth (pidOf c)
        (depNet dep (pidOf c) (freshPos c : Position α).net_deposited)
      = wthNet wth (pidOf c) (depNet dep (pidOf c) p₀.net_deposited)
    rw [hn']
    rfl
  · show depStake dep (pidOf c) (freshPos c : Position α).stake
      = depStake dep (pidOf c) p₀.stake
    rw [hs']
    rfl

/-- Witness for `duplicate_creation_overwrites`: two creations of position
id 7. -/
theorem duplicate_creation_overwrites_witness :
    ∃ p q,
      lookupT (buildPositions (fun a => a) [creLog7] [] [] []) (pidOf creLog7')
          = some p
      ∧ lookupT (buildPositions (fun a => a) ([creLog7] ++ [creLog7']) [] [] [])
          (pidOf creLog7') = some q
      ∧ q.expiry_ts = expiryOf creLog7'
      ∧ q.validator = validatorOf creLog7'
      ∧ q.owner = p.owner
      ∧ q.net_deposited = p.net_deposited
      ∧ q.stake = p.stake :=
  duplicate_creation_overwrites (fun a => a) [creLog7] [] [] [] creLog7'
    (by decide)

/-- The owner-independent fields of a position: expiry, validator,
net_deposited, stake. -/
def stripQuad {α : Type} (p : Position α) : Nat × List Nat × ℚ × ℚ :=
  (p.expiry_ts, p.validator, p.net_deposited, p.stake)

/-- The creation pass is oblivious to the owner type: two creation passes
over the same logs produce tables agreeing on every owner-independent
field. -/
theorem applyCreates_strip {α β : Type} :
    ∀ (pc : List RawLog) (t₁ : PosTable α) (t₂ : PosTable β),
      (∀ k, (lookupT t₁ k).map stripQuad = (lookupT t₂ k).map stripQuad) →
      ∀ k, (lookupT (applyCreates pc t₁) k).map stripQuad
        = (lookupT (applyCreates pc t₂) k).map stripQuad := by
  intro pc
  induction pc with
  | nil => intro t₁ t₂ h k; exact h k
  | cons c pc ih =>
    intro t₁ t₂ h k
    unfold applyCreates
    rw [List.foldl_cons, List.foldl_cons]
    refine ih (upsert t₁ (pidOf c) (freshPos c)) (upsert t₂ (pidOf c) (freshPos c))
      ?_ k
    intro k'
    rw [lookupT_upsert, lookupT_upsert]
    by_cases hk : pidOf c = k'
    · rw [if_pos hk, if_pos hk]
      rfl
    · rw [if_neg hk, if_neg hk]
      exact h k'

/-- The transfer fold formats one and the same address bytes whichever
formatter is used. -/
theorem ownerFold_map {α : Type} (fmt : List Nat → α) (k : Nat) :
    ∀ (tr : List RawLog) (o : Option (List Nat)),
      ownerFold fmt tr k (o.map fmt)
        = (ownerFold (fun a => a) tr k o).map fmt := by
  intro tr
  induction tr with
  | nil => intro o; rfl
  | cons l tr ih =>
    intro o
    unfold ownerFold
    simp only [List.foldl_cons]
    by_cases h : tokenOf l = k
    · rw [if_pos h, if_pos h]
      exact ih (some (addrBytes (l.topics.getD 2 [])))
    · rw [if_neg h, if_neg h]
      exact ih o

/-- C8: given identical `PositionCreated`, `Transfer`, `FundsDeposited` and
`FundsWithdrawn` input logs, the `enso_top_stakers.main` projection and the
`dashboard.load_data` projection — instances of `buildPositions` at their
respective `addr_from_topic` formatters (checksummed versus raw lowercase
hex) — agree for every position id on `expiry_ts`, `validator`,
`net_deposited` and `stake` (and on whether the id is present at all); and
each projection's owner field is its own formatter applied to one and the
same address bytes, those recorded by the identity-formatted reference
projection — so the two implementations differ at most in the textual
formatting of the owner address. -/
theorem projections_agree {α β : Type} (fmt₁ : List Nat → α)
    (fmt₂ : List Nat → β) (pc tr dep wth : List RawLog) (k : Nat) :
    (lookupT (buildPositions fmt₁ pc tr dep wth) k).map stripQuad
      = (lookupT (buildPositions fmt₂ pc tr dep wth) k).map stripQuad
    ∧ (lookupT (buildPositions fmt₁ pc tr dep wth) k).map (fun p => p.owner)
      = (lookupT (buildPositions (fun a => a) pc tr dep wth) k).map
          (fun p => p.owner.map fmt₁)
    ∧ (lookupT (buildPositions fmt₂ pc tr dep wth) k).map (fun p => p.owner)
      = (lookupT (buildPositions (fun a => a) pc tr dep wth) k).map
          (fun p => p.owner.map fmt₂) := by
  have hbase : ∀ {γ δ : Type},
      ∀ k', (lookupT (applyCreates pc ([] : PosTable γ)) k').map stripQuad
        = (lookupT (applyCreates pc ([] : PosTable δ)) k').map stripQuad := by
    intro γ δ
    exact applyCreates_strip pc [] [] (fun _ => rfl)
  have howner : ∀ {γ : Type} (fmt : List Nat → γ),
      (lookupT (buildPositions fmt pc tr dep wth) k).map (fun p => p.owner)
        = (lookupT (buildPositions (fun a => a) pc tr dep wth) k).map
            (fun p => p.owner.map fmt) := by
    intro γ fmt
    rw [lookupT_buildPositions, lookupT_buildPositions]
    have h := hbase (γ := γ) (δ := List Nat) k
    cases hA : lookupT (applyCreates pc ([] : PosTable γ)) k with
    | none =>
      rw [hA] at h
      cases hI : lookupT (applyCreates pc ([] : PosTable (List Nat))) k with
      | none => rfl
      | some pi => rw [hI] at h; simp at h
    | some pg =>
      rw [hA] at h
      cases hI : lookupT (applyCreates pc ([] : PosTable (List Nat))) k with
      | none => rw [hI] at h; simp at h
      | some pi =>
        simp only [Option.map_some']
        have hzg : pg.owner = none :=
          (applyCreates_zero_fields pc []
            (fun kp hk => absurd hk (List.not_mem_nil kp)) _
            (lookupT_eq_some_mem _ _ _ hA)).1
        have hzi : pi.owner = none :=
          (applyCreates_zero_fields pc []
            (fun kp hk => absurd hk (List.not_mem_nil kp)) _
            (lookupT_eq_some_mem _ _ _ hI)).1
        show some (ownerFold fmt tr k pg.owner)
          = some ((ownerFold (fun a => a) tr k pi.owner).map fmt)
        rw [hzg, hzi]
        exact congrArg some (ownerFold_map fmt k tr none)
  refine ⟨?_, howner fmt₁, howner fmt₂⟩
  rw [lookupT_buildPositions, lookupT_buildPositions]
  have h := hbase (γ := α) (δ := β) k
  cases hA : lookupT (applyCreates pc ([] : PosTable α)) k with
  | none =>
    rw [hA] at h
    cases hB : lookupT (applyCreates pc ([] : PosTable β)) k with
    | none => rfl
    | some pb => rw [hB] at h; simp at h
  | some pa =>
    rw [hA] at h
    cases hB : lookupT (applyCreates pc ([] : PosTable β)) k with
    | none => rw [hB] at h; simp at h
    | some pb =>
      rw [hB] at h
      simp only [Option.map_some', Option.some.injEq] at h ⊢
      obtain ⟨he, hv, hn, hs⟩ : pa.expiry_ts = pb.expiry_ts
          ∧ pa.validator = pb.validator
          ∧ pa.net_deposited = pb.net_deposited ∧ pa.stake = pb.stake := by
        simpa [stripQuad, Prod.ext_iff] using h
      show (pa.expiry_ts, pa.validator,
          wthNet wth k (depNet dep k pa.net_deposited), depStake dep k pa.stake)
        = (pb.expiry_ts, pb.validator,
          wthNet wth k (depNet dep k pb.net_deposited), depStake dep k pb.stake)
      rw [he, hv, hn, hs]

/-! ## Owner aggregation (C3, C9) -/

/-- One row of the owner summary (`owner_df`). -/
structure OwnerSummary (α : Type) where
  owner : α
  total_staked : ℚ
  total_stake_weight : ℚ
  num_positions : Nat
  earliest_unlock : Nat
  latest_unlock : Nat
deriving DecidableEq, Repr

/-- Embedding of `pos_df[pos_df["net_deposited"] > 0]` — the active positions. -/
def activePositions {α : Type} (ps : List (Position α)) : List (Position α) :=
  ps.filter (fun p => 0 < p.net_deposited)

/-- The group of active positions belonging to owner `a`. -/
def groupOf {α : Type} [DecidableEq α] (act : List (Position α)) (a : α) :
    List (Position α) :=
  act.filter (fun p => p.owner = some a)

/-- The aggregate row for one owner group (`groupby("owner").agg(...)`). -/
def summaryRow {α : Type} [DecidableEq α] (act : List (Position α)) (a : α) :
    OwnerSummary α :=
  { owner := a
    total_staked := ((groupOf act a).map (fun p => p.net_deposited)).sum
    total_stake_weight := ((groupOf act a).map (fun p => p.stake)).sum
    num_positions := (groupOf act a).length
    earliest_unlock := (((groupOf act a).map (fun p => p.expiry_ts)).min?).getD 0
    latest_unlock := (((groupOf act a).map (fun p => p.expiry_ts)).max?).getD 0 }

/-- Embedding of the owner aggregation of `enso_top_stakers.main` and
`dashboard.load_data`: filter to active positions, group by owner, aggregate
per group, sort by `total_staked` descending (rank is the 1-based output
index).  pandas `groupby` **drops null keys**: a position whose `owner` is
`None` joins no group.  Grouping keys are taken in first-occurrence order
(pandas sorts them; every claim here is insensitive to group order). -/
def summarize {α : Type} [DecidableEq α] (ps : List (Position α)) :
    List (OwnerSummary α) :=
  sortBy (fun r₁ r₂ => r₂.total_staked ≤ r₁.total_staked)
    ((((activePositions ps).filterMap (fun p => p.owner)).dedup).map
      (summaryRow (activePositions ps)))

/-- An active position (balance 5) for which no ownership transfer was ever
observed. -/
def orphanPos : Position (List Nat) :=
  { position_id := 1
    expiry_ts := 100
    validator := []
    owner := none
    net_deposited := 5
    stake := 5 }

/-- C3, counterexample: a table holding one active position with no recorded
owner aggregates to **no** summary rows at all — the position joins no
group (pandas `groupby` drops the null key), rather than appearing under an
"unknown owner" sentinel with its balance. -/
theorem summarize_drops_ownerless :
    summarize [orphanPos] = [] ∧ 0 < orphanPos.net_deposited
      ∧ orphanPos.owner = none := by
  refine ⟨?_, by norm_num [orphanPos], rfl⟩
  have hfm : ((activePositions [orphanPos]).filterMap (fun p => p.owner)) = [] := by
    unfold activePositions
    rw [List.filter_cons]
    split <;> rfl
  unfold summarize
  rw [hfm]
  rfl

theorem filter_isSome_filterMap_owner {α : Type} :
    ∀ l : List (Position α),
      (l.filter (fun p => p.owner.isSome)).filterMap (fun p => p.owner)
        = l.filterMap (fun p => p.owner) := by
  intro l
  induction l with
  | nil => rfl
  | cons p l ih =>
    cases hp : p.owner with
    | none => simp [List.filter_cons, List.filterMap_cons, hp, ih]
    | some a => simp [List.filter_cons, List.filterMap_cons, hp, ih]

theorem groupOf_filter_isSome {α : Type} [DecidableEq α]
    (act : List (Position α)) (a : α) :
    groupOf (act.filter (fun p => p.owner.isSome)) a = groupOf act a := by
  unfold groupOf
  induction act with
  | nil => rfl
  | cons p l ih =>
    cases hp : p.owner with
    | none => simp [List.filter_cons, hp, ih]
    | some b =>
      by_cases hab : b = a
      · subst hab
        simp [List.filter_cons, hp, ih]
      · simp [List.filter_cons, hp, ih, hab]

/-- C3, amended: an active position with no recorded owner (no
`OwnershipTransferred`/`Transfer` ever observed for it) is excluded from the
owner aggregation entirely — it is never merged into any real address's
totals, but it is silently dropped rather than reported under an explicit
"unknown owner" sentinel: aggregating any table gives exactly the same
output as aggregating the table with all ownerless positions removed. -/
theorem summarize_ignores_ownerless {α : Type} [DecidableEq α]
    (ps : List (Position α)) :
    summarize ps = summarize (ps.filter (fun p => p.owner.isSome)) := by
  unfold summarize
  have hact : activePositions (ps.filter (fun p => p.owner.isSome))
      = (activePositions ps).filter (fun p => p.owner.isSome) := by
    unfold activePositions
    rw [List.filter_comm]
  rw [hact, filter_isSome_filterMap_owner]
  congr 1
  apply List.map_congr_left
  intro a _
  unfold summaryRow
  rw [groupOf_filter_isSome]

/-- Exactly one key of a duplicate-free covering key list picks up the `c`
summand. -/
theorem sum_map_add_single {α M : Type} [DecidableEq α] [AddCommMonoid M]
    (a₀ : α) (c : M) (f : α → M) :
    ∀ keys : List α, keys.Nodup → a₀ ∈ keys →
      (keys.map (fun a => if a₀ = a then c + f a else f a)).sum
        = c + (keys.map f).sum := by
  intro keys
  induction keys with
  | nil => intro _ h; cases h
  | cons b keys ih =>
    intro hnd hmem
    rcases List.mem_cons.mp hmem with rfl | hmem'
    · have hnin : a₀ ∉ keys := (List.nodup_cons.mp hnd).1
      have hrest : keys.map (fun a => if a₀ = a then c + f a else f a)
          = keys.map f := by
        apply List.map_congr_left
        intro x hx
        rw [if_neg]
        intro he
        exact hnin (he ▸ hx)
      simp [hrest, add_assoc]
    · have hne : a₀ ≠ b := by
        intro he
        exact (List.nodup_cons.mp hnd).1 (he ▸ hmem')
      simp only [List.map_cons, List.sum_cons, if_neg hne]
      rw [ih (List.nodup_cons.mp hnd).2 hmem', add_left_comm]

/-- Partition identity: summing a value over every owner group, across a
duplicate-free key list covering every recorded owner, equals summing it
over the owned positions directly. -/
theorem sum_over_groups {α M : Type} [DecidableEq α] [AddCommMonoid M]
    (v : Position α → M) (keys : List α) (hk : keys.Nodup) :
    ∀ l : List (Position α),
      (∀ p ∈ l, ∀ a, p.owner = some a → a ∈ keys) →
      (keys.map (fun a => ((groupOf l a).map v).sum)).sum
        = ((l.filter (fun p => p.owner.isSome)).map v).sum := by
  intro l
  induction l with
  | nil =>
    intro _
    simp [groupOf]
  | cons p l ih =>
    intro h
    have hrest := ih (fun q hq => h q (List.mem_cons_of_mem p hq))
    cases hp : p.owner with
    | none =>
      have hgrp : ∀ a, groupOf (p :: l) a = groupOf l a := by
        intro a
        unfold groupOf
        rw [List.filter_cons]
        simp [hp]
      simp only [hgrp]
      rw [hrest, List.filter_cons]
      simp [hp]
    | some a₀ =>
      have ha₀ : a₀ ∈ keys := h p (List.mem_cons_self p l) a₀ hp
      have hgrp : ∀ a, groupOf (p :: l) a
          = if a₀ = a then p :: groupOf l a else groupOf l a := by
        intro a
        unfold groupOf
        rw [List.filter_cons]
        by_cases hab : a₀ = a
        · subst hab
          simp [hp]
        · simp [hp, hab]
      have hmap : (keys.map (fun a => ((groupOf (p :: l) a).map v).sum))
          = keys.map (fun a => if a₀ = a
              then v p + ((groupOf l a).map v).sum
              else ((groupOf l a).map v).sum) := by
        apply List.map_congr_left
        intro a _
        rw [hgrp a]
        by_cases hab : a₀ = a
        · simp [hab]
        · simp [hab]
      rw [hmap, sum_map_add_single a₀ (v p) _ keys hk ha₀, hrest,
        List.filter_cons]
      simp [hp]

theorem sum_map_ones {β : Type} : ∀ l : List β, (l.map (fun _ => (1 : ℕ))).sum = l.length := by
  intro l
  induction l with
  | nil => rfl
  | cons b l ih => simp [ih, Nat.add_comm]

/-- C9: over any positions table, the `total_staked` of the summary rows
sums to the `net_deposited` of exactly the active positions with a recorded
owner, and the `num_positions` fields sum to their count — the aggregation
neither double-counts nor drops any grouped position's balance. -/
theorem summarize_sums {α : Type} [DecidableEq α] (ps : List (Position α)) :
    ((summarize ps).map (fun s => s.total_staked)).sum
      = (((activePositions ps).filter (fun p => p.owner.isSome)).map
          (fun p => p.net_deposited)).sum
    ∧ ((summarize ps).map (fun s => s.num_positions)).sum
      = ((activePositions ps).filter (fun p => p.owner.isSome)).length := by
  have hcov : ∀ p ∈ activePositions ps, ∀ a, p.owner = some a →
      a ∈ ((activePositions ps).filterMap (fun p => p.owner)).dedup := by
    intro p hp a ha
    rw [List.mem_dedup]
    exact List.mem_filterMap.mpr ⟨p, hp, ha⟩
  have hnd := List.nodup_dedup ((activePositions ps).filterMap (fun p => p.owner))
  constructor
  · have hperm := ((perm_sortBy
        (fun r₁ r₂ : OwnerSummary α => r₂.total_staked ≤ r₁.total_staked)
        ((((activePositions ps).filterMap (fun p => p.owner)).dedup).map
          (summaryRow (activePositions ps))))).map
      (fun s => s.total_staked)
    unfold summarize
    rw [hperm.sum_eq, List.map_map]
    exact sum_over_groups (fun p => p.net_deposited) _ hnd _ hcov
  · have hperm := ((perm_sortBy
        (fun r₁ r₂ : OwnerSummary α => r₂.total_staked ≤ r₁.total_staked)
        ((((activePositions ps).filterMap (fun p => p.owner)).dedup).map
          (summaryRow (activePositions ps))))).map
      (fun s => s.num_positions)
    unfold summarize
    rw [hperm.sum_eq, List.map_map]
    have hlen : ∀ a, (groupOf (activePositions ps) a).length
        = ((groupOf (activePositions ps) a).map (fun _ => (1 : ℕ))).sum := by
      intro a
      rw [sum_map_ones]
    calc ((((activePositions ps).filterMap (fun p => p.owner)).dedup).map
          ((fun s : OwnerSummary α => s.num_positions)
            ∘ summaryRow (activePositions ps))).sum
        = ((((activePositions ps).filterMap (fun p => p.owner)).dedup).map
            (fun a => ((groupOf (activePositions ps) a).map
              (fun _ => (1 : ℕ))).sum)).sum := by
          apply congrArg
          apply List.map_congr_left
          intro a _
          exact hlen a
      _ = (((activePositions ps).filter (fun p => p.owner.isSome)).map
            (fun _ => (1 : ℕ))).sum :=
          sum_over_groups (fun _ => (1 : ℕ)) _ hnd _ hcov
      _ = ((activePositions ps).filter (fun p => p.owner.isSome)).length :=
          sum_map_ones _

end Enso
